import Mathlib

/-!
# Reduction order check of `apps/super_simplify/reduction_order.cpp`

A shallow embedding of the rewrite-rule validator `valid_reduction_order` and of the
analyses it is built from (`build_histogram`, `compare_histograms`, the rank table `nto`),
followed by the properties proved about them.

Conventions of the embedding:
* a `std::map<IRNodeType, int>` is a finite map `IRNodeType → Option Int` (`none` = no entry);
* a `std::map<std::string, int>` is an association list, read through `VarMap.find?`;
* the `int` counters of the histogram are read in two ways: `build_histogram` counts in
  mathematical integers, and `build_histogram32` counts in the 32-bit `int` of the source,
  wrapping at `2^31` as the compiled code does (signed overflow is undefined in C++); the
  two agree on every expression none of whose counts reaches `2^31`
  (`build_histogram32_eq`);
* the trace line written to `std::cout` inside `compare_histograms` is not modelled.
-/

namespace ReductionOrder

/-! ## Data model -/

/-- Modelled from the spec: the node-kind enumeration `IRNodeType` comes from `Halide.h`,
which is not among the sources. The kinds are those of the spec's data model (section 3),
together with the let-binding that the visitors of the source handle. -/
inductive IRNodeType
  | IntImm | UIntImm | FloatImm | Broadcast | Cast | Variable
  | Add | Sub | Mod | Mul | Div | Min | Max
  | EQ | NE | LT | LE | GT | GE
  | And | Or | Not | Select | Ramp | Let
  deriving DecidableEq

/-- Modelled from the spec: the expression tree `Expr` comes from `Halide.h`, which is not
among the sources. One constructor per node kind of the spec's data model; the field names
are the ones the source reads (`op->a`, `op->b`, `op->condition`, `op->true_value`,
`op->false_value`, `op->base`, `op->stride`, `op->value`, `op->name`, `op->body`).
A floating literal carries its bit pattern. -/
inductive Expr
  | IntImm (value : Int)
  | UIntImm (value : Nat)
  | FloatImm (bits : Nat)
  | Broadcast (value : Expr)
  | Cast (value : Expr)
  | Variable (name : String)
  | Add (a b : Expr)
  | Sub (a b : Expr)
  | Mod (a b : Expr)
  | Mul (a b : Expr)
  | Div (a b : Expr)
  | Min (a b : Expr)
  | Max (a b : Expr)
  | EQ (a b : Expr)
  | NE (a b : Expr)
  | LT (a b : Expr)
  | LE (a b : Expr)
  | GT (a b : Expr)
  | GE (a b : Expr)
  | And (a b : Expr)
  | Or (a b : Expr)
  | Not (a : Expr)
  | Select (condition true_value false_value : Expr)
  | Ramp (base stride : Expr)
  | Let (name : String) (value body : Expr)
  deriving DecidableEq

/-- The kind of the outermost node: `Expr::node_type()`. -/
def Expr.node_type : Expr → IRNodeType
  | .IntImm _ => .IntImm
  | .UIntImm _ => .UIntImm
  | .FloatImm _ => .FloatImm
  | .Broadcast _ => .Broadcast
  | .Cast _ => .Cast
  | .Variable _ => .Variable
  | .Add _ _ => .Add
  | .Sub _ _ => .Sub
  | .Mod _ _ => .Mod
  | .Mul _ _ => .Mul
  | .Div _ _ => .Div
  | .Min _ _ => .Min
  | .Max _ _ => .Max
  | .EQ _ _ => .EQ
  | .NE _ _ => .NE
  | .LT _ _ => .LT
  | .LE _ _ => .LE
  | .GT _ _ => .GT
  | .GE _ _ => .GE
  | .And _ _ => .And
  | .Or _ _ => .Or
  | .Not _ => .Not
  | .Select _ _ _ => .Select
  | .Ramp _ _ => .Ramp
  | .Let _ _ _ => .Let

/-- A `std::map<IRNodeType, int>`: the histogram of an expression, and the rank table. -/
abbrev KindMap := IRNodeType → Option Int

/-- The empty map. -/
def KindMap.empty : KindMap := fun _ => none

/-- Assignment `m[k] = v`. -/
def KindMap.set (m : KindMap) (k : IRNodeType) (v : Int) : KindMap :=
  fun j => if j = k then some v else m j

/-- Reading `m[k]` as the source does: `std::map::operator[]` returns the stored value, and
for a key without an entry it first inserts the value-initialised `0`. The result is the
value read together with the map afterwards. -/
def KindMap.index (m : KindMap) (k : IRNodeType) : Int × KindMap :=
  match m k with
  | some v => (v, m)
  | none => (0, m.set k 0)

/-- The count a map holds for a kind, an absent entry read as zero. -/
def KindMap.count0 (m : KindMap) (k : IRNodeType) : Int :=
  match m k with
  | some c => c
  | none => 0

/-- A `std::map<std::string, int>`: variable name to occurrence count. -/
abbrev VarMap := List (String × Int)

/-- The entry of a name, if there is one. -/
def VarMap.find? (m : VarMap) (v : String) : Option Int := List.lookup v m

/-- The value of `m[v]`: the stored count, or `0` for a name without an entry. In the source
the read also inserts that `0` into the local copy `lhs_vars`; a later read of the same name
gives `0` either way, and the copy is dropped when the function returns. -/
def VarMap.index (m : VarMap) (v : String) : Int := (m.find? v).getD 0

/-! ## The ordering tables -/

/-- The priority list `node_ordering[18]`. -/
def node_ordering : List IRNodeType :=
  [.Ramp, .Broadcast, .Select, .Div, .Mul, .Mod, .Sub, .Add, .Min, .Not, .Or, .And,
   .GE, .GT, .LE, .LT, .NE, .EQ]

/-- The initialiser list of the rank table `nto`. -/
def nto_entries : List (IRNodeType × Int) :=
  [(.Ramp, 23), (.Broadcast, 22), (.Select, 21), (.Div, 20), (.Mul, 19), (.Mod, 18),
   (.Sub, 17), (.Add, 16), (.Max, 14), (.Min, 14), (.Not, 13), (.Or, 12), (.And, 11),
   (.GE, 10), (.GT, 9), (.LE, 8), (.LT, 7), (.NE, 6), (.EQ, 5), (.Cast, 4),
   (.FloatImm, 2), (.UIntImm, 1), (.IntImm, 0)]

/-- The rank table `nto` as it is when the program starts. -/
def nto : KindMap := fun k => List.lookup k nto_entries

/-- The rank the decider reads for a kind: the value of `nto[k]`. -/
def rank (k : IRNodeType) : Int := (KindMap.index nto k).1

/-! ## Node-kind histogram -/

/-- The method `NodeHistogram::increment_histo`, the counter read as a mathematical integer.
The same method on the 32-bit counter of the source is `increment_histo32`. -/
def increment_histo (histogram : KindMap) (node_type : IRNodeType) : KindMap :=
  match histogram node_type with
  | none => histogram.set node_type 1
  | some c => histogram.set node_type (c + 1)

/-- The visitor `NodeHistogram`, threading its member `histogram`. The kinds with an override
increment their bucket and then visit the operands in the order of the source. `NE`, `Cast`,
`Variable` and the literals have no override: the base visitor only descends into the
operands. The `Let` override visits the value and the body; the scope `lets` it pushes the
name on is never read. -/
def NodeHistogram.visit : Expr → KindMap → KindMap
  | .Select c t f, h => visit f (visit t (visit c (increment_histo h .Select)))
  | .Ramp b s, h => visit s (visit b (increment_histo h .Ramp))
  | .Broadcast v, h => visit v (increment_histo h .Broadcast)
  | .Add a b, h => visit b (visit a (increment_histo h .Add))
  | .Sub a b, h => visit b (visit a (increment_histo h .Sub))
  | .Mul a b, h => visit b (visit a (increment_histo h .Mul))
  | .Div a b, h => visit b (visit a (increment_histo h .Div))
  | .Mod a b, h => visit b (visit a (increment_histo h .Mod))
  | .LT a b, h => visit b (visit a (increment_histo h .LT))
  | .LE a b, h => visit b (visit a (increment_histo h .LE))
  | .GT a b, h => visit b (visit a (increment_histo h .GT))
  | .GE a b, h => visit b (visit a (increment_histo h .GE))
  | .EQ a b, h => visit b (visit a (increment_histo h .EQ))
  | .Min a b, h => visit b (visit a (increment_histo h .Min))
  | .Max a b, h => visit b (visit a (increment_histo h .Min))
  | .Not a, h => visit a (increment_histo h .Not)
  | .And a b, h => visit b (visit a (increment_histo h .And))
  | .Or a b, h => visit b (visit a (increment_histo h .Or))
  | .Let _ v b, h => visit b (visit v h)
  | .NE a b, h => visit b (visit a h)
  | .Cast v, h => visit v h
  | .Variable _, h => h
  | .IntImm _, h => h
  | .UIntImm _, h => h
  | .FloatImm _, h => h

/-- The function `build_histogram`. -/
def build_histogram (e : Expr) : KindMap := NodeHistogram.visit e KindMap.empty

/-- The value a 32-bit `int` holds for the arithmetic result `z`: the two's-complement
representative of `z` in the range from `-2^31` to `2^31 - 1`. -/
def int32_wrap (z : Int) : Int := (z + 2147483648) % 4294967296 - 2147483648

/-- The method `NodeHistogram::increment_histo` on the 32-bit counter of the source:
`histogram[node_type] = histogram[node_type] + 1` is computed in `int`. -/
def increment_histo32 (histogram : KindMap) (node_type : IRNodeType) : KindMap :=
  match histogram node_type with
  | none => histogram.set node_type 1
  | some c => histogram.set node_type (int32_wrap (c + 1))

/-- The visitor `NodeHistogram` on the 32-bit counter: the same traversal as
`NodeHistogram.visit`, incrementing with `increment_histo32`. -/
def NodeHistogram.visit32 : Expr → KindMap → KindMap
  | .Select c t f, h => visit32 f (visit32 t (visit32 c (increment_histo32 h .Select)))
  | .Ramp b s, h => visit32 s (visit32 b (increment_histo32 h .Ramp))
  | .Broadcast v, h => visit32 v (increment_histo32 h .Broadcast)
  | .Add a b, h => visit32 b (visit32 a (increment_histo32 h .Add))
  | .Sub a b, h => visit32 b (visit32 a (increment_histo32 h .Sub))
  | .Mul a b, h => visit32 b (visit32 a (increment_histo32 h .Mul))
  | .Div a b, h => visit32 b (visit32 a (increment_histo32 h .Div))
  | .Mod a b, h => visit32 b (visit32 a (increment_histo32 h .Mod))
  | .LT a b, h => visit32 b (visit32 a (increment_histo32 h .LT))
  | .LE a b, h => visit32 b (visit32 a (increment_histo32 h .LE))
  | .GT a b, h => visit32 b (visit32 a (increment_histo32 h .GT))
  | .GE a b, h => visit32 b (visit32 a (increment_histo32 h .GE))
  | .EQ a b, h => visit32 b (visit32 a (increment_histo32 h .EQ))
  | .Min a b, h => visit32 b (visit32 a (increment_histo32 h .Min))
  | .Max a b, h => visit32 b (visit32 a (increment_histo32 h .Min))
  | .Not a, h => visit32 a (increment_histo32 h .Not)
  | .And a b, h => visit32 b (visit32 a (increment_histo32 h .And))
  | .Or a b, h => visit32 b (visit32 a (increment_histo32 h .Or))
  | .Let _ v b, h => visit32 b (visit32 v h)
  | .NE a b, h => visit32 b (visit32 a h)
  | .Cast v, h => visit32 v h
  | .Variable _, h => h
  | .IntImm _, h => h
  | .UIntImm _, h => h
  | .FloatImm _, h => h

/-- The function `build_histogram` on the 32-bit counter of the source. -/
def build_histogram32 (e : Expr) : KindMap := NodeHistogram.visit32 e KindMap.empty

/-- The loop of `compare_histograms` over the kinds still to be read. A count is the stored
value when the histogram has an entry for the kind (`count(node) == 1`) and `0` otherwise. -/
def compare_histograms_loop (lhs_histo rhs_histo : KindMap) : List IRNodeType → Int
  | [] => 0
  | node :: rest =>
    let lhs_node_count := lhs_histo.count0 node
    let rhs_node_count := rhs_histo.count0 node
    if lhs_node_count < rhs_node_count then -1
    else if lhs_node_count > rhs_node_count then 1
    else compare_histograms_loop lhs_histo rhs_histo rest

/-- The function `compare_histograms`: 1 if correctly ordered, -1 if incorrectly ordered,
0 if tied. -/
def compare_histograms (LHS RHS : Expr) : Int :=
  compare_histograms_loop (build_histogram LHS) (build_histogram RHS) node_ordering

/-! ## Variable occurrences -/

/-- Counting one more occurrence of a name: a first occurrence creates the entry with
count 1, a later one adds 1 to it. -/
def VarMap.increment : VarMap → String → VarMap
  | [], v => [(v, 1)]
  | (k, c) :: rest, v =>
    if v = k then (k, c + 1) :: rest else (k, c) :: VarMap.increment rest v

/-- Modelled from the spec: the visitor behind `find_vars` lives in `expr_util.h`, which is
not among the sources. Section 4.1: every sub-expression is visited; entering the body of a
let pushes the bound name on the scope `lets`, and an occurrence of a name in scope is not
counted; the value of the let is visited outside that scope. -/
def FindVars.visit : Expr → List String → VarMap → VarMap
  | .Variable name, lets, vars => if name ∈ lets then vars else vars.increment name
  | .Let name v b, lets, vars => visit b (name :: lets) (visit v lets vars)
  | .Select c t f, lets, vars => visit f lets (visit t lets (visit c lets vars))
  | .Ramp b s, lets, vars => visit s lets (visit b lets vars)
  | .Broadcast v, lets, vars => visit v lets vars
  | .Cast v, lets, vars => visit v lets vars
  | .Not a, lets, vars => visit a lets vars
  | .Add a b, lets, vars => visit b lets (visit a lets vars)
  | .Sub a b, lets, vars => visit b lets (visit a lets vars)
  | .Mul a b, lets, vars => visit b lets (visit a lets vars)
  | .Div a b, lets, vars => visit b lets (visit a lets vars)
  | .Mod a b, lets, vars => visit b lets (visit a lets vars)
  | .Min a b, lets, vars => visit b lets (visit a lets vars)
  | .Max a b, lets, vars => visit b lets (visit a lets vars)
  | .EQ a b, lets, vars => visit b lets (visit a lets vars)
  | .NE a b, lets, vars => visit b lets (visit a lets vars)
  | .LT a b, lets, vars => visit b lets (visit a lets vars)
  | .LE a b, lets, vars => visit b lets (visit a lets vars)
  | .GT a b, lets, vars => visit b lets (visit a lets vars)
  | .GE a b, lets, vars => visit b lets (visit a lets vars)
  | .And a b, lets, vars => visit b lets (visit a lets vars)
  | .Or a b, lets, vars => visit b lets (visit a lets vars)
  | .IntImm _, _, vars => vars
  | .UIntImm _, _, vars => vars
  | .FloatImm _, _, vars => vars

/-- Modelled from the spec: `find_vars` of `expr_util.h` (not among the sources), the map
from variable name to the number of free occurrences. -/
def find_vars (e : Expr) : VarMap := FindVars.visit e [] []

/-! ## The decider -/

/-- The test of the loop over `rhs_vars` in `valid_reduction_order`: the entry `varcount`
of the right side makes the rule fail. The name of a variable is not empty, so `front()` is
its first character; on the empty string `String.front` gives a character other than `c`. -/
def var_gate_fails (lhs_vars : VarMap) (varcount : String × Int) : Bool :=
  varcount.1.front != 'c' &&
    (lhs_vars.index varcount.1 == 0 || decide (varcount.2 > lhs_vars.index varcount.1))

/-- The function `valid_reduction_order`, with the variable-occurrence function `fv` it calls
and the rank table `tbl` it reads given explicitly. It returns the verdict and the rank table
it leaves behind: the two reads `nto[lhs_root_type]` and `nto[rhs_root_type]` go through
`operator[]`. (C++ leaves the order of these two reads open; both orders read the same values
and leave the same table.) -/
def valid_reduction_order_st (fv : Expr → VarMap) (tbl : KindMap) (LHS RHS : Expr) :
    Bool × KindMap :=
  let lhs_vars := fv LHS
  let rhs_vars := fv RHS
  if rhs_vars.any (var_gate_fails lhs_vars) then (false, tbl)
  else
    let rule_histogram_ordering := compare_histograms LHS RHS
    if rule_histogram_ordering = 1 then (true, tbl)
    else if rule_histogram_ordering = -1 then (false, tbl)
    else
      let lhs_root_type := LHS.node_type
      let rhs_root_type := RHS.node_type
      let l := tbl.index lhs_root_type
      let r := l.2.index rhs_root_type
      if l.1 ≥ r.1 then (false, r.2) else (true, r.2)

/-- The verdict of `valid_reduction_order` on the rank table of program start, for a given
variable-occurrence function. -/
def valid_reduction_order_with (fv : Expr → VarMap) (LHS RHS : Expr) : Bool :=
  (valid_reduction_order_st fv nto LHS RHS).1

/-- The verdict of `valid_reduction_order` with `find_vars` as the variable-occurrence
function. -/
def valid_reduction_order (LHS RHS : Expr) : Bool :=
  valid_reduction_order_with find_vars LHS RHS

/-- The rank tables the program can be in: the table of program start, and the table left
by a call of `valid_reduction_order` made in such a state. -/
inductive Reachable (fv : Expr → VarMap) : KindMap → Prop
  | start : Reachable fv nto
  | call (tbl : KindMap) (LHS RHS : Expr) :
      Reachable fv tbl → Reachable fv (valid_reduction_order_st fv tbl LHS RHS).2

/-! ## Divisor collector -/

/-- The visitor `DivisorSet`, threading its member `divisors` (a `std::set<std::string>`, kept
as a list without repetition). The overrides for `Div` and `Mod` insert the rendering of the
right operand (`term << op->b`) and then visit both operands; every other kind has no
override, and the base visitor descends into the operands. The rendering of an expression to
text comes from `Halide.h`, which is not among the sources, and is the parameter `render`. -/
def DivisorSet.visit (render : Expr → String) : Expr → List String → List String
  | .Div a b, d => visit render b (visit render a (List.insert (render b) d))
  | .Mod a b, d => visit render b (visit render a (List.insert (render b) d))
  | .Select c t f, d => visit render f (visit render t (visit render c d))
  | .Ramp b s, d => visit render s (visit render b d)
  | .Let _ v b, d => visit render b (visit render v d)
  | .Broadcast v, d => visit render v d
  | .Cast v, d => visit render v d
  | .Not a, d => visit render a d
  | .Add a b, d => visit render b (visit render a d)
  | .Sub a b, d => visit render b (visit render a d)
  | .Mul a b, d => visit render b (visit render a d)
  | .Min a b, d => visit render b (visit render a d)
  | .Max a b, d => visit render b (visit render a d)
  | .EQ a b, d => visit render b (visit render a d)
  | .NE a b, d => visit render b (visit render a d)
  | .LT a b, d => visit render b (visit render a d)
  | .LE a b, d => visit render b (visit render a d)
  | .GT a b, d => visit render b (visit render a d)
  | .GE a b, d => visit render b (visit render a d)
  | .And a b, d => visit render b (visit render a d)
  | .Or a b, d => visit render b (visit render a d)
  | .Variable _, d => d
  | .IntImm _, d => d
  | .UIntImm _, d => d
  | .FloatImm _, d => d

/-- The function `find_divisors`. -/
def find_divisors (render : Expr → String) (e : Expr) : List String :=
  DivisorSet.visit render e []

/-- The function `check_divisors`: all divisors on RHS appear as divisors on LHS. The loop
returns `false` at the first term of `rhs_divisors` that `lhs_divisors` does not hold. -/
def check_divisors (render : Expr → String) (LHS RHS : Expr) : Bool :=
  let lhs_divisors := find_divisors render LHS
  let rhs_divisors := find_divisors render RHS
  rhs_divisors.all (fun rhs_term => decide (rhs_term ∈ lhs_divisors))

/-! ## Definitions used to state the properties -/

/-- The variable containment gate lets the rule through: every entry of the right side
whose name does not begin with `c` has a non-zero count on the left side that is at least
its count on the right side. -/
def var_gate_passes (lhs_vars rhs_vars : VarMap) : Prop :=
  ∀ vc ∈ rhs_vars, vc.1.front ≠ 'c' →
    lhs_vars.index vc.1 ≠ 0 ∧ vc.2 ≤ lhs_vars.index vc.1

/-- The kinds of all the nodes of an expression, the root first. -/
def Expr.kinds : Expr → List IRNodeType
  | .IntImm _ => [.IntImm]
  | .UIntImm _ => [.UIntImm]
  | .FloatImm _ => [.FloatImm]
  | .Variable _ => [.Variable]
  | .Broadcast v => .Broadcast :: v.kinds
  | .Cast v => .Cast :: v.kinds
  | .Not a => .Not :: a.kinds
  | .Add a b => .Add :: (a.kinds ++ b.kinds)
  | .Sub a b => .Sub :: (a.kinds ++ b.kinds)
  | .Mod a b => .Mod :: (a.kinds ++ b.kinds)
  | .Mul a b => .Mul :: (a.kinds ++ b.kinds)
  | .Div a b => .Div :: (a.kinds ++ b.kinds)
  | .Min a b => .Min :: (a.kinds ++ b.kinds)
  | .Max a b => .Max :: (a.kinds ++ b.kinds)
  | .EQ a b => .EQ :: (a.kinds ++ b.kinds)
  | .NE a b => .NE :: (a.kinds ++ b.kinds)
  | .LT a b => .LT :: (a.kinds ++ b.kinds)
  | .LE a b => .LE :: (a.kinds ++ b.kinds)
  | .GT a b => .GT :: (a.kinds ++ b.kinds)
  | .GE a b => .GE :: (a.kinds ++ b.kinds)
  | .And a b => .And :: (a.kinds ++ b.kinds)
  | .Or a b => .Or :: (a.kinds ++ b.kinds)
  | .Ramp b s => .Ramp :: (b.kinds ++ s.kinds)
  | .Select c t f => .Select :: (c.kinds ++ (t.kinds ++ f.kinds))
  | .Let _ v b => .Let :: (v.kinds ++ b.kinds)

/-- The number of nodes of kind `k` in `e`. -/
def node_count (k : IRNodeType) (e : Expr) : Nat := e.kinds.count k

/-- The count the spec gives for kind `k`: the number of nodes of kind `k`, where a `Max`
node is counted as a `Min` node. -/
def spec_count (k : IRNodeType) (e : Expr) : Nat :=
  if k = .Min then node_count .Min e + node_count .Max e else node_count k e

/-- The bucket a node of a given kind is put into by the overrides of `NodeHistogram`, if
the kind has an override that increments. -/
def histogram_bucket : IRNodeType → Option IRNodeType
  | .Select => some .Select
  | .Ramp => some .Ramp
  | .Broadcast => some .Broadcast
  | .Add => some .Add
  | .Sub => some .Sub
  | .Mul => some .Mul
  | .Div => some .Div
  | .Mod => some .Mod
  | .LT => some .LT
  | .LE => some .LE
  | .GT => some .GT
  | .GE => some .GE
  | .EQ => some .EQ
  | .Min => some .Min
  | .Max => some .Min
  | .Not => some .Not
  | .And => some .And
  | .Or => some .Or
  | _ => none

/-- The number of increments of bucket `k` made while visiting `e`. -/
def bucket_count (k : IRNodeType) (e : Expr) : Nat :=
  (e.kinds.filterMap histogram_bucket).count k

/-- Replacing every `Max` node by a `Min` node on the same operands. -/
def Expr.max_to_min : Expr → Expr
  | .IntImm v => .IntImm v
  | .UIntImm v => .UIntImm v
  | .FloatImm v => .FloatImm v
  | .Variable n => .Variable n
  | .Broadcast v => .Broadcast v.max_to_min
  | .Cast v => .Cast v.max_to_min
  | .Not a => .Not a.max_to_min
  | .Add a b => .Add a.max_to_min b.max_to_min
  | .Sub a b => .Sub a.max_to_min b.max_to_min
  | .Mod a b => .Mod a.max_to_min b.max_to_min
  | .Mul a b => .Mul a.max_to_min b.max_to_min
  | .Div a b => .Div a.max_to_min b.max_to_min
  | .Min a b => .Min a.max_to_min b.max_to_min
  | .Max a b => .Min a.max_to_min b.max_to_min
  | .EQ a b => .EQ a.max_to_min b.max_to_min
  | .NE a b => .NE a.max_to_min b.max_to_min
  | .LT a b => .LT a.max_to_min b.max_to_min
  | .LE a b => .LE a.max_to_min b.max_to_min
  | .GT a b => .GT a.max_to_min b.max_to_min
  | .GE a b => .GE a.max_to_min b.max_to_min
  | .And a b => .And a.max_to_min b.max_to_min
  | .Or a b => .Or a.max_to_min b.max_to_min
  | .Ramp b s => .Ramp b.max_to_min s.max_to_min
  | .Select c t f => .Select c.max_to_min t.max_to_min f.max_to_min
  | .Let n v b => .Let n v.max_to_min b.max_to_min

/-- The first kind of the list `ks` at which the two histograms hold different counts, an
absent entry read as zero. -/
def first_difference_in (l r : KindMap) (ks : List IRNodeType) : Option IRNodeType :=
  ks.find? (fun k => l.count0 k != r.count0 k)

/-- The first kind, in the priority order `node_ordering`, at which the histograms of two
expressions hold different counts. -/
def first_difference (L R : Expr) : Option IRNodeType :=
  first_difference_in (build_histogram L) (build_histogram R) node_ordering

/-- A well-formed occurrence map: no name has two entries and every count is positive. -/
def VarMap.Good (m : VarMap) : Prop :=
  (m.map Prod.fst).Nodup ∧ ∀ vc ∈ m, 0 < vc.2

/-- The pointwise sum of two histograms: a kind has an entry when it has one in either map,
and its count is the sum of the counts, an absent entry read as zero. -/
def KindMap.add (m₁ m₂ : KindMap) : KindMap := fun k =>
  match m₁ k, m₂ k with
  | none, none => none
  | some a, none => some a
  | none, some b => some b
  | some a, some b => some (a + b)

/-- A bare literal: an integer, unsigned or floating literal. -/
def Expr.isImm : Expr → Bool
  | .IntImm _ => true
  | .UIntImm _ => true
  | .FloatImm _ => true
  | _ => false

/-- The operator kinds of the rank table: the eighteen kinds of `node_ordering` and `Max`. -/
def operator_kinds : List IRNodeType := node_ordering ++ [.Max]

/-- The literal kinds. -/
def literal_kinds : List IRNodeType := [.IntImm, .UIntImm, .FloatImm]

/-- The kinds the spec lists as possible roots of an input expression. -/
def root_kinds : List IRNodeType :=
  [.Ramp, .Broadcast, .Select, .Div, .Mul, .Mod, .Sub, .Add, .Min, .Max, .Not, .And, .Or,
   .LT, .LE, .GT, .GE, .EQ, .NE, .Cast, .Variable, .IntImm, .UIntImm, .FloatImm]

/-- All the sub-expressions of an expression, itself first. -/
def Expr.subterms : Expr → List Expr
  | .IntImm v => [.IntImm v]
  | .UIntImm v => [.UIntImm v]
  | .FloatImm v => [.FloatImm v]
  | .Variable n => [.Variable n]
  | .Broadcast v => .Broadcast v :: v.subterms
  | .Cast v => .Cast v :: v.subterms
  | .Not a => .Not a :: a.subterms
  | .Add a b => .Add a b :: (a.subterms ++ b.subterms)
  | .Sub a b => .Sub a b :: (a.subterms ++ b.subterms)
  | .Mod a b => .Mod a b :: (a.subterms ++ b.subterms)
  | .Mul a b => .Mul a b :: (a.subterms ++ b.subterms)
  | .Div a b => .Div a b :: (a.subterms ++ b.subterms)
  | .Min a b => .Min a b :: (a.subterms ++ b.subterms)
  | .Max a b => .Max a b :: (a.subterms ++ b.subterms)
  | .EQ a b => .EQ a b :: (a.subterms ++ b.subterms)
  | .NE a b => .NE a b :: (a.subterms ++ b.subterms)
  | .LT a b => .LT a b :: (a.subterms ++ b.subterms)
  | .LE a b => .LE a b :: (a.subterms ++ b.subterms)
  | .GT a b => .GT a b :: (a.subterms ++ b.subterms)
  | .GE a b => .GE a b :: (a.subterms ++ b.subterms)
  | .And a b => .And a b :: (a.subterms ++ b.subterms)
  | .Or a b => .Or a b :: (a.subterms ++ b.subterms)
  | .Ramp b s => .Ramp b s :: (b.subterms ++ s.subterms)
  | .Select c t f => .Select c t f :: (c.subterms ++ (t.subterms ++ f.subterms))
  | .Let n v b => .Let n v b :: (v.subterms ++ b.subterms)

/-- The right operand of a node, when the node is a division or a modulo. -/
def Expr.divisor? : Expr → Option Expr
  | .Div _ b => some b
  | .Mod _ b => some b
  | _ => none

/-- Every count a map holds is positive. -/
def KindMap.Positive (m : KindMap) : Prop := ∀ k c, m k = some c → 0 < c

/-- The full binary tree of additions of depth `n` over the variable `x`: it has `2^n - 1`
`Add` nodes. -/
def Expr.doubled : Nat → Expr
  | 0 => .Variable "x"
  | n + 1 => .Add (Expr.doubled n) (Expr.doubled n)

/-- An expression with `2^30` `Add` nodes. -/
def Expr.big30 : Expr := .Add (Expr.doubled 30) (.Variable "x")

/-- Every count a map holds fits the 32-bit `int`. -/
def KindMap.InRange (m : KindMap) : Prop :=
  ∀ k c, m k = some c → -2147483648 ≤ c ∧ c < 2147483648

/-! ## Lemmas on the maps -/

theorem count0_set (m : KindMap) (k' : IRNodeType) (v : Int) (k : IRNodeType) :
    (m.set k' v).count0 k = if k = k' then v else m.count0 k := by
  unfold KindMap.count0 KindMap.set
  split_ifs <;> rfl

theorem count0_increment_histo (h : KindMap) (k' k : IRNodeType) :
    (increment_histo h k').count0 k = h.count0 k + if k = k' then 1 else 0 := by
  unfold increment_histo
  cases hk : h k' with
  | none =>
    simp only [count0_set]
    split_ifs with e
    · subst e; simp [KindMap.count0, hk]
    · simp
  | some c =>
    simp only [count0_set]
    split_ifs with e
    · subst e; simp [KindMap.count0, hk]
    · simp

theorem visit_count0 (e : Expr) (h : KindMap) (k : IRNodeType) :
    (NodeHistogram.visit e h).count0 k = h.count0 k + (bucket_count k e : Int) := by
  induction e generalizing h <;>
    simp [NodeHistogram.visit, bucket_count, Expr.kinds, histogram_bucket,
      count0_increment_histo, List.count_cons, List.filterMap_append, *] <;>
    (try split_ifs) <;> first | omega | (exfalso; simp_all)

theorem build_histogram_count0 (e : Expr) (k : IRNodeType) :
    (build_histogram e).count0 k = (bucket_count k e : Int) := by
  rw [build_histogram, visit_count0]
  simp [KindMap.empty, KindMap.count0]

theorem index_fst (m : KindMap) (k : IRNodeType) : (m.index k).1 = m.count0 k := by
  unfold KindMap.index KindMap.count0
  cases m k <;> rfl

theorem count0_index_snd (m : KindMap) (a k : IRNodeType) :
    (m.index a).2.count0 k = m.count0 k := by
  unfold KindMap.index
  cases ha : m a with
  | some v => rfl
  | none =>
    simp only [count0_set]
    split_ifs with e
    · subst e; simp [KindMap.count0, ha]
    · rfl

theorem rank_eq_count0 (k : IRNodeType) : rank k = nto.count0 k := index_fst nto k

/-! ## Lemmas on the comparison loop and the gates -/

theorem compare_histograms_loop_values (l r : KindMap) (ks : List IRNodeType) :
    compare_histograms_loop l r ks = 1 ∨ compare_histograms_loop l r ks = 0 ∨
      compare_histograms_loop l r ks = -1 := by
  induction ks with
  | nil => simp [compare_histograms_loop]
  | cons k ks ih =>
    simp only [compare_histograms_loop]
    split_ifs <;> simp [ih]

theorem var_gate_fails_eq_false (lhs_vars : VarMap) (vc : String × Int) :
    var_gate_fails lhs_vars vc = false ↔
      (vc.1.front ≠ 'c' → lhs_vars.index vc.1 ≠ 0 ∧ vc.2 ≤ lhs_vars.index vc.1) := by
  unfold var_gate_fails
  by_cases hc : vc.1.front = 'c'
  · simp [hc]
  · simp [hc, not_or, not_lt]

theorem any_var_gate_fails (lhs_vars rhs_vars : VarMap) :
    rhs_vars.any (var_gate_fails lhs_vars) = false ↔ var_gate_passes lhs_vars rhs_vars := by
  unfold var_gate_passes
  rw [← Bool.not_eq_true, List.any_eq_true]
  constructor
  · intro h vc hvc
    have h1 : var_gate_fails lhs_vars vc = false := by
      cases hf : var_gate_fails lhs_vars vc with
      | false => rfl
      | true => exact absurd ⟨vc, hvc, hf⟩ h
    exact (var_gate_fails_eq_false lhs_vars vc).1 h1
  · rintro h ⟨vc, hvc, hf⟩
    have := (var_gate_fails_eq_false lhs_vars vc).2 (h vc hvc)
    rw [hf] at this
    exact Bool.noConfusion this

/-- The verdict of a call made on any rank table `tbl`. -/
theorem valid_reduction_order_st_verdict (fv : Expr → VarMap) (tbl : KindMap) (L R : Expr) :
    (valid_reduction_order_st fv tbl L R).1 = true ↔
      var_gate_passes (fv L) (fv R) ∧
        (compare_histograms L R = 1 ∨
          (compare_histograms L R = 0 ∧ tbl.count0 L.node_type < tbl.count0 R.node_type)) := by
  unfold valid_reduction_order_st
  simp only []
  by_cases hg : (fv R).any (var_gate_fails (fv L)) = true
  · have hn : ¬ var_gate_passes (fv L) (fv R) := by
      rw [← any_var_gate_fails]; simp [hg]
    simp [hg, hn]
  · have hp : var_gate_passes (fv L) (fv R) := by
      rw [← any_var_gate_fails]; simpa using hg
    rw [if_neg hg]
    rcases compare_histograms_loop_values (build_histogram L) (build_histogram R)
      node_ordering with h | h | h
    · have h1 : compare_histograms L R = 1 := h
      simp [h1, hp]
    · have h0 : compare_histograms L R = 0 := h
      simp only [h0, hp, index_fst, count0_index_snd]
      by_cases hle : tbl.count0 R.node_type ≤ tbl.count0 L.node_type
      · rw [if_pos hle]; simp; omega
      · rw [if_neg hle]; simp; omega
    · have hm : compare_histograms L R = -1 := h
      simp [hm, hp]

/-- A call leaves every rank as it was. -/
theorem valid_reduction_order_st_count0 (fv : Expr → VarMap) (tbl : KindMap) (L R : Expr)
    (k : IRNodeType) :
    (valid_reduction_order_st fv tbl L R).2.count0 k = tbl.count0 k := by
  unfold valid_reduction_order_st
  simp only []
  split_ifs <;> simp [count0_index_snd]

theorem reachable_count0 (fv : Expr → VarMap) (tbl : KindMap) (h : Reachable fv tbl)
    (k : IRNodeType) : tbl.count0 k = rank k := by
  induction h with
  | start => exact (rank_eq_count0 k).symm
  | call t L R _ ih => rw [valid_reduction_order_st_count0, ih]

theorem valid_reduction_order_with_iff (fv : Expr → VarMap) (L R : Expr) :
    valid_reduction_order_with fv L R = true ↔
      var_gate_passes (fv L) (fv R) ∧
        (compare_histograms L R = 1 ∨
          (compare_histograms L R = 0 ∧ rank L.node_type < rank R.node_type)) := by
  unfold valid_reduction_order_with
  rw [valid_reduction_order_st_verdict, rank_eq_count0, rank_eq_count0]

/-- Every call made in a reachable state of the rank table gives the verdict of
`valid_reduction_order_with`. -/
theorem valid_reduction_order_st_reachable (fv : Expr → VarMap) (tbl : KindMap)
    (h : Reachable fv tbl) (L R : Expr) :
    (valid_reduction_order_st fv tbl L R).1 = valid_reduction_order_with fv L R := by
  rw [Bool.eq_iff_iff, valid_reduction_order_st_verdict, valid_reduction_order_with_iff,
    reachable_count0 fv tbl h, reachable_count0 fv tbl h]

theorem rank_le (k : IRNodeType) : rank k ≤ 23 := by
  cases k <;> decide

theorem lookup_some_mem (m : VarMap) (v : String) (c : Int) (h : m.find? v = some c) :
    (v, c) ∈ m := by
  unfold VarMap.find? at h
  induction m with
  | nil => simp at h
  | cons p rest ih =>
    obtain ⟨k, c'⟩ := p
    rw [List.lookup_cons] at h
    by_cases hk : (v == k) = true
    · rw [hk] at h
      have hv : v = k := by simpa using hk
      have hc : c' = c := by simpa using h
      subst hv; subst hc
      exact List.mem_cons_self _ _
    · have hk' : (v == k) = false := by simpa using hk
      rw [hk'] at h
      exact List.mem_cons_of_mem _ (ih h)

theorem index_ne_zero_find (m : VarMap) (v : String) (h : m.index v ≠ 0) :
    m.find? v = some (m.index v) := by
  unfold VarMap.index at *
  cases hf : m.find? v with
  | none => rw [hf] at h; simp at h
  | some c => simp

/-! ## The contract of the decider -/

/-- C1: `valid_reduction_order(L, R)` is true if and only if (a) every variable of
`find_vars(R)` whose name does not begin with `c` has a non-zero count in `find_vars(L)` that
is at least its count in `R`, and (b) `compare_histograms(L, R) = 1`, or it is `0` and the
rank of the root kind of `L` is below that of `R`. A failure of (a) rejects whatever the
histograms are, and when the histograms do not tie the rank table is not read (the call
leaves it as it was). The variable-occurrence function is arbitrary. -/
theorem valid_reduction_order_contract (fv : Expr → VarMap) (L R : Expr) :
    (valid_reduction_order_with fv L R = true ↔
      (∀ vc ∈ fv R, vc.1.front ≠ 'c' →
        (fv L).index vc.1 ≠ 0 ∧ vc.2 ≤ (fv L).index vc.1) ∧
      (compare_histograms L R = 1 ∨
        (compare_histograms L R = 0 ∧ rank L.node_type < rank R.node_type))) ∧
    ((¬ ∀ vc ∈ fv R, vc.1.front ≠ 'c' →
        (fv L).index vc.1 ≠ 0 ∧ vc.2 ≤ (fv L).index vc.1) →
      valid_reduction_order_with fv L R = false) ∧
    (compare_histograms L R ≠ 0 →
      (valid_reduction_order_st fv nto L R).2 = nto ∧
        valid_reduction_order_with fv L R =
          (decide (∀ vc ∈ fv R, vc.1.front ≠ 'c' →
              (fv L).index vc.1 ≠ 0 ∧ vc.2 ≤ (fv L).index vc.1) &&
            decide (compare_histograms L R = 1))) := by
  have hiff := valid_reduction_order_with_iff fv L R
  unfold var_gate_passes at hiff
  refine ⟨hiff, ?_, ?_⟩
  · intro hn
    cases hv : valid_reduction_order_with fv L R with
    | false => rfl
    | true => exact absurd (hiff.1 hv).1 hn
  · intro hne
    constructor
    · unfold valid_reduction_order_st
      simp only []
      split_ifs with h1 h2 h3
      · rfl
      · rfl
      · rfl
      · rcases compare_histograms_loop_values (build_histogram L) (build_histogram R)
          node_ordering with h | h | h
        · exact absurd h h2
        · exact absurd h hne
        · exact absurd h h3
      · rcases compare_histograms_loop_values (build_histogram L) (build_histogram R)
          node_ordering with h | h | h
        · exact absurd h h2
        · exact absurd h hne
        · exact absurd h h3
    · rw [Bool.eq_iff_iff, hiff]
      simp [hne]

/-- C2: containment law. If the rule is accepted, every variable of `find_vars(R)` whose
name does not begin with `c` has an entry in `find_vars(L)` whose count is at least its count
in `R`; a rule with such a variable absent from `L`, or occurring more often in `R` than in
`L`, is rejected; and `L = x`, `R = x + y` is rejected. -/
theorem containment_law :
    (∀ (fv : Expr → VarMap) (L R : Expr) (v : String) (c : Int),
      (v, c) ∈ fv R → v.front ≠ 'c' → valid_reduction_order_with fv L R = true →
        ∃ c', (fv L).find? v = some c' ∧ c' ≥ c) ∧
    (∀ (fv : Expr → VarMap) (L R : Expr) (v : String) (c : Int),
      (v, c) ∈ fv R → v.front ≠ 'c' →
        ((fv L).find? v = none ∨ ∃ c', (fv L).find? v = some c' ∧ c' < c) →
          valid_reduction_order_with fv L R = false) ∧
    valid_reduction_order (.Variable "x") (.Add (.Variable "x") (.Variable "y")) = false := by
  have key : ∀ (fv : Expr → VarMap) (L R : Expr) (v : String) (c : Int),
      (v, c) ∈ fv R → v.front ≠ 'c' → valid_reduction_order_with fv L R = true →
        ∃ c', (fv L).find? v = some c' ∧ c' ≥ c := by
    intro fv L R v c hmem hc hv
    have hg := ((valid_reduction_order_with_iff fv L R).1 hv).1 (v, c) hmem hc
    exact ⟨(fv L).index v, index_ne_zero_find _ _ hg.1, hg.2⟩
  refine ⟨key, ?_, by decide⟩
  intro fv L R v c hmem hc habs
  cases hv : valid_reduction_order_with fv L R with
  | false => rfl
  | true =>
    obtain ⟨c', hf, hge⟩ := key fv L R v c hmem hc hv
    rcases habs with hnone | ⟨c'', hf', hlt⟩
    · rw [hnone] at hf; simp at hf
    · rw [hf'] at hf
      have : c'' = c' := by simpa using hf
      omega

/-- The containment law at an accepted rule: `L = x + y`, `R = x`. -/
theorem containment_law_witness :
    ∃ c', (find_vars (.Add (.Variable "x") (.Variable "y"))).find? "x" = some c' ∧ c' ≥ 1 :=
  containment_law.1 find_vars (.Add (.Variable "x") (.Variable "y")) (.Variable "x") "x" 1
    (by decide) (by decide) (by decide)

/-! ## Well-foundedness -/

/-- The order the last two gates decide by, read over the kinds `ks`. -/
theorem order_wf (ks : List IRNodeType) :
    WellFounded (fun R L : Expr =>
      compare_histograms_loop (build_histogram L) (build_histogram R) ks = 1 ∨
        (compare_histograms_loop (build_histogram L) (build_histogram R) ks = 0 ∧
          rank L.node_type < rank R.node_type)) := by
  induction ks with
  | nil =>
    refine Subrelation.wf ?_
      (InvImage.wf (fun e : Expr => (23 - rank e.node_type).toNat) Nat.lt_wfRel.wf)
    intro R L h
    have hlt : rank L.node_type < rank R.node_type := by
      rcases h with h | h
      · simp [compare_histograms_loop] at h
      · exact h.2
    have hR := rank_le R.node_type
    show (23 - rank R.node_type).toNat < (23 - rank L.node_type).toNat
    omega
  | cons k ks ih =>
    refine Subrelation.wf ?_
      (InvImage.wf (fun e : Expr => (bucket_count k e, e)) (WellFounded.prod_lex Nat.lt_wfRel.wf ih))
    intro R L h
    show Prod.Lex _ _ (bucket_count k R, R) (bucket_count k L, L)
    simp only [compare_histograms_loop, build_histogram_count0] at h
    by_cases h1 : (bucket_count k L : Int) < bucket_count k R
    · simp [h1] at h
    · by_cases h2 : (bucket_count k L : Int) > bucket_count k R
      · exact Prod.Lex.left _ _ (by exact_mod_cast h2)
      · have he : bucket_count k R = bucket_count k L := by omega
        rw [if_neg h1, if_neg h2] at h
        rw [he]
        exact Prod.Lex.right _ h

/-- C3: the accepted-rule relation is well-founded, for the verdict of a call made in any
reachable state of the rank table and whatever the variable-occurrence function is; so there
is no infinite sequence `e 0, e 1, ...` with `valid_reduction_order(e i, e (i+1))` true for
every `i`. -/
theorem valid_reduction_order_well_founded (fv : Expr → VarMap) :
    WellFounded (fun R L : Expr =>
      ∃ tbl, Reachable fv tbl ∧ (valid_reduction_order_st fv tbl L R).1 = true) ∧
    ¬ ∃ e : ℕ → Expr, ∀ i, valid_reduction_order_with fv (e i) (e (i + 1)) = true := by
  have hwf : WellFounded (fun R L : Expr =>
      ∃ tbl, Reachable fv tbl ∧ (valid_reduction_order_st fv tbl L R).1 = true) := by
    refine Subrelation.wf ?_ (order_wf node_ordering)
    rintro R L ⟨tbl, hr, hv⟩
    rw [valid_reduction_order_st_reachable fv tbl hr] at hv
    exact ((valid_reduction_order_with_iff fv L R).1 hv).2
  refine ⟨hwf, ?_⟩
  rintro ⟨e, he⟩
  obtain ⟨a, ⟨i, rfl⟩, hmin⟩ := hwf.has_min (Set.range e) ⟨e 0, 0, rfl⟩
  exact hmin (e (i + 1)) ⟨i + 1, rfl⟩ ⟨nto, Reachable.start, he i⟩

/-! ## The histogram -/

theorem bucket_single (k j : IRNodeType) (hk : k ∈ node_ordering) (hne : k ≠ .NE) :
    ([j].filterMap histogram_bucket).count k =
      if k = .Min then [j].count .Min + [j].count .Max else [j].count k := by
  cases k <;> first
    | exact absurd rfl hne
    | (exfalso; revert hk; decide)
    | (cases j <;> decide)

theorem bucket_count_eq_spec_count (e : Expr) (k : IRNodeType) (hk : k ∈ node_ordering)
    (hne : k ≠ .NE) : bucket_count k e = spec_count k e := by
  have key : ∀ ks : List IRNodeType,
      (ks.filterMap histogram_bucket).count k =
        if k = .Min then ks.count .Min + ks.count .Max else ks.count k := by
    intro ks
    induction ks with
    | nil => simp
    | cons j ks ih =>
      have hsplit : j :: ks = [j] ++ ks := rfl
      rw [hsplit, List.filterMap_append, List.count_append, List.count_append,
        List.count_append, List.count_append, ih, bucket_single k j hk hne]
      split_ifs <;> omega
  unfold bucket_count spec_count node_count
  exact key e.kinds

/-- C4: the histogram does not count `NE` nodes, although `NE` is one of the eighteen kinds
of `node_ordering`: for `e = (x != y)` it has no `NE` entry, so the count read for `NE` is 0
while `e` has one `NE` node. For the seventeen other kinds of `node_ordering` the count is
the number of nodes of the kind, `Max` nodes counted as `Min` nodes. -/
theorem build_histogram_misses_NE :
    (IRNodeType.NE ∈ node_ordering ∧
      build_histogram (.NE (.Variable "x") (.Variable "y")) .NE = none ∧
      (build_histogram (.NE (.Variable "x") (.Variable "y"))).count0 .NE = 0 ∧
      spec_count .NE (.NE (.Variable "x") (.Variable "y")) = 1) ∧
    (∀ (e : Expr) (k : IRNodeType), k ∈ node_ordering → k ≠ .NE →
      (build_histogram e).count0 k = (spec_count k e : Int)) := by
  refine ⟨by decide, ?_⟩
  intro e k hk hne
  rw [build_histogram_count0, bucket_count_eq_spec_count e k hk hne]

theorem visit_max_to_min (e : Expr) (h : KindMap) :
    NodeHistogram.visit e.max_to_min h = NodeHistogram.visit e h := by
  induction e generalizing h <;> simp [Expr.max_to_min, NodeHistogram.visit, *]

/-- C5: max/min equivalence. Replacing every `Max` node of an expression by a `Min` node on
the same operands leaves the histogram unchanged. -/
theorem build_histogram_max_to_min (e : Expr) :
    build_histogram e.max_to_min = build_histogram e :=
  visit_max_to_min e KindMap.empty

/-! ## The histogram comparison -/

theorem compare_histograms_loop_lex (l r : KindMap) (ks : List IRNodeType) :
    (compare_histograms_loop l r ks = 1 ↔
      ∃ k, first_difference_in l r ks = some k ∧ l.count0 k > r.count0 k) ∧
    (compare_histograms_loop l r ks = -1 ↔
      ∃ k, first_difference_in l r ks = some k ∧ l.count0 k < r.count0 k) ∧
    (compare_histograms_loop l r ks = 0 ↔ ∀ k ∈ ks, l.count0 k = r.count0 k) := by
  induction ks with
  | nil => simp [compare_histograms_loop, first_difference_in]
  | cons j ks ih =>
    unfold first_difference_in at ih ⊢
    simp only [compare_histograms_loop, List.find?_cons, List.forall_mem_cons]
    by_cases h1 : l.count0 j < r.count0 j
    · have hne : (l.count0 j != r.count0 j) = true := by simp; omega
      simp only [if_pos h1, hne]
      refine ⟨?_, ?_, ?_⟩
      · simp; omega
      · simp [h1]
      · simp; omega
    · by_cases h2 : l.count0 j > r.count0 j
      · have hne : (l.count0 j != r.count0 j) = true := by simp; omega
        simp only [if_neg h1, if_pos h2, hne]
        refine ⟨?_, ?_, ?_⟩
        · simp [h2]
        · simp; omega
        · simp; omega
      · have he : l.count0 j = r.count0 j := by omega
        have hne : (l.count0 j != r.count0 j) = false := by simp [he]
        simp only [if_neg h1, if_neg h2, hne]
        refine ⟨ih.1, ih.2.1, ?_⟩
        rw [ih.2.2]
        simp [he]

/-- C7: `compare_histograms(L, R)` is the lexicographic comparison of the two histograms read
in the priority order `node_ordering`, a missing entry counted as zero: it is `1` exactly
when `L` holds the greater count at the first kind where the counts differ, `-1` exactly when
`L` holds the smaller count there, and `0` exactly when the counts are equal at all eighteen
kinds. -/
theorem compare_histograms_lexicographic (L R : Expr) :
    (compare_histograms L R = 1 ↔
      ∃ k, first_difference L R = some k ∧
        (build_histogram L).count0 k > (build_histogram R).count0 k) ∧
    (compare_histograms L R = -1 ↔
      ∃ k, first_difference L R = some k ∧
        (build_histogram L).count0 k < (build_histogram R).count0 k) ∧
    (compare_histograms L R = 0 ↔
      ∀ k ∈ node_ordering, (build_histogram L).count0 k = (build_histogram R).count0 k) ∧
    node_ordering.length = 18 :=
  ⟨(compare_histograms_loop_lex _ _ node_ordering).1,
    (compare_histograms_loop_lex _ _ node_ordering).2.1,
    (compare_histograms_loop_lex _ _ node_ordering).2.2, rfl⟩

/-! ## The occurrence maps of `find_vars` -/

theorem increment_keys (m : VarMap) (v k : String) :
    k ∈ (m.increment v).map Prod.fst ↔ k = v ∨ k ∈ m.map Prod.fst := by
  induction m with
  | nil => simp [VarMap.increment]
  | cons p rest ih =>
    obtain ⟨k', c⟩ := p
    unfold VarMap.increment
    by_cases hv : v = k'
    · subst hv; simp
    · rw [if_neg hv]
      simp only [List.map_cons, List.mem_cons, ih]
      tauto

theorem increment_good (m : VarMap) (v : String) (h : m.Good) : (m.increment v).Good := by
  induction m with
  | nil => exact ⟨by simp [VarMap.increment], by simp [VarMap.increment]⟩
  | cons p rest ih =>
    obtain ⟨k', c⟩ := p
    obtain ⟨hnd, hpos⟩ := h
    have hnd' := List.nodup_cons.1 hnd
    have hrest : VarMap.Good rest :=
      ⟨hnd'.2, fun vc hvc => hpos vc (List.mem_cons_of_mem _ hvc)⟩
    have hc : 0 < c := hpos (k', c) (List.mem_cons_self _ _)
    unfold VarMap.increment
    by_cases hv : v = k'
    · rw [if_pos hv]
      refine ⟨hnd, ?_⟩
      intro vc hvc
      rcases List.mem_cons.1 hvc with h1 | h1
      · subst h1; show 0 < c + 1; omega
      · exact hpos vc (List.mem_cons_of_mem _ h1)
    · rw [if_neg hv]
      obtain ⟨ihnd, ihpos⟩ := ih hrest
      refine ⟨?_, ?_⟩
      · rw [List.map_cons, List.nodup_cons]
        refine ⟨?_, ihnd⟩
        rw [increment_keys]
        rintro (h1 | h1)
        · exact hv h1.symm
        · exact hnd'.1 h1
      · intro vc hvc
        rcases List.mem_cons.1 hvc with h1 | h1
        · subst h1; exact hc
        · exact ihpos vc h1

theorem visit_good (e : Expr) (lets : List String) (vars : VarMap) (h : vars.Good) :
    (FindVars.visit e lets vars).Good := by
  induction e generalizing lets vars with
  | Variable name =>
    unfold FindVars.visit
    split_ifs
    · exact h
    · exact increment_good vars name h
  | IntImm _ => exact h
  | UIntImm _ => exact h
  | FloatImm _ => exact h
  | Broadcast v ih => exact ih lets vars h
  | Cast v ih => exact ih lets vars h
  | Not a ih => exact ih lets vars h
  | Select c t f ihc iht ihf => exact ihf lets _ (iht lets _ (ihc lets vars h))
  | Let name v b ihv ihb => exact ihb _ _ (ihv lets vars h)
  | _ a b iha ihb => exact ihb lets _ (iha lets vars h)

theorem find_vars_good (e : Expr) : (find_vars e).Good :=
  visit_good e [] [] ⟨by simp, by simp⟩

theorem mem_find (m : VarMap) (hnd : (m.map Prod.fst).Nodup) (v : String) (c : Int)
    (h : (v, c) ∈ m) : m.find? v = some c := by
  unfold VarMap.find?
  induction m with
  | nil => simp at h
  | cons p rest ih =>
    obtain ⟨k, c'⟩ := p
    have hnd' := List.nodup_cons.1 hnd
    rw [List.lookup_cons]
    rcases List.mem_cons.1 h with h1 | h1
    · have hv : v = k := congrArg Prod.fst h1
      have hc : c = c' := congrArg Prod.snd h1
      subst hv; subst hc
      simp
    · have hne : v ≠ k := by
        rintro rfl
        exact hnd'.1 (List.mem_map.2 ⟨(v, c), h1, rfl⟩)
      have hb : (v == k) = false := by simpa using hne
      rw [hb]
      exact ih hnd'.2 h1

theorem find_vars_mem_iff (e : Expr) (v : String) (c : Int) :
    (v, c) ∈ find_vars e ↔ (find_vars e).find? v = some c :=
  ⟨mem_find _ (find_vars_good e).1 v c, lookup_some_mem _ v c⟩

theorem compare_histograms_loop_self (h : KindMap) (ks : List IRNodeType) :
    compare_histograms_loop h h ks = 0 := by
  induction ks with
  | nil => rfl
  | cons k ks ih => simp [compare_histograms_loop, ih]

/-- With equal occurrence maps the variable containment gate lets the rule through. -/
theorem var_gate_passes_of_same (L R : Expr)
    (hv : ∀ v, (find_vars L).find? v = (find_vars R).find? v) :
    var_gate_passes (find_vars L) (find_vars R) := by
  intro vc hvc _
  obtain ⟨v, c⟩ := vc
  have hf : (find_vars R).find? v = some c := (find_vars_mem_iff R v c).1 hvc
  have hpos : 0 < c := (find_vars_good R).2 (v, c) hvc
  have hi : (find_vars L).index v = c := by
    unfold VarMap.index
    rw [hv v, hf]
    rfl
  show (find_vars L).index v ≠ 0 ∧ c ≤ (find_vars L).index v
  rw [hi]
  omega

/-- C6: for `L`, `R` with the same histogram and the same occurrence map, the verdict is true
exactly when the rank of the root kind of `L` is below that of `R`; and when the two root
ranks differ, the verdict for `(R, L)` is the negation of the verdict for `(L, R)`. -/
theorem same_histogram_same_vars (L R : Expr)
    (hh : build_histogram L = build_histogram R)
    (hv : ∀ v, (find_vars L).find? v = (find_vars R).find? v) :
    (valid_reduction_order L R = true ↔ rank L.node_type < rank R.node_type) ∧
    (rank L.node_type ≠ rank R.node_type →
      valid_reduction_order R L = !valid_reduction_order L R) := by
  have hLR : compare_histograms L R = 0 := by
    unfold compare_histograms; rw [hh]; exact compare_histograms_loop_self _ _
  have hRL : compare_histograms R L = 0 := by
    unfold compare_histograms; rw [hh]; exact compare_histograms_loop_self _ _
  have h1 : valid_reduction_order L R = true ↔ rank L.node_type < rank R.node_type := by
    unfold valid_reduction_order
    rw [valid_reduction_order_with_iff, hLR]
    simp [var_gate_passes_of_same L R hv]
  have h2 : valid_reduction_order R L = true ↔ rank R.node_type < rank L.node_type := by
    unfold valid_reduction_order
    rw [valid_reduction_order_with_iff, hRL]
    simp [var_gate_passes_of_same R L (fun v => (hv v).symm)]
  refine ⟨h1, ?_⟩
  intro hne
  rw [Bool.eq_iff_iff, h2]
  simp only [Bool.not_eq_true']
  rw [← Bool.not_eq_true, h1]
  omega

/-- The law on equal histograms and occurrence maps at `L = x`, `R = cast(x)`: both
histograms are empty, both occurrence maps hold `x` once, and the roots are a variable
reference and a cast. -/
theorem same_histogram_same_vars_witness :
    (valid_reduction_order (.Variable "x") (.Cast (.Variable "x")) = true ↔
      rank (Expr.Variable "x").node_type < rank (Expr.Cast (.Variable "x")).node_type) ∧
    (rank (Expr.Variable "x").node_type ≠ rank (Expr.Cast (.Variable "x")).node_type →
      valid_reduction_order (.Cast (.Variable "x")) (.Variable "x") =
        !valid_reduction_order (.Variable "x") (.Cast (.Variable "x"))) :=
  same_histogram_same_vars (.Variable "x") (.Cast (.Variable "x")) rfl (fun _ => rfl)

/-! ## Constant wildcards -/

theorem var_gate_passes_congr (L R L' R' : Expr)
    (hvL : ∀ v : String, v.front ≠ 'c' → (find_vars L).find? v = (find_vars L').find? v)
    (hvR : ∀ v : String, v.front ≠ 'c' → (find_vars R).find? v = (find_vars R').find? v)
    (h : var_gate_passes (find_vars L) (find_vars R)) :
    var_gate_passes (find_vars L') (find_vars R') := by
  intro vc hvc hc
  obtain ⟨v, c⟩ := vc
  have hf : (find_vars R').find? v = some c := (find_vars_mem_iff R' v c).1 hvc
  have hmem : (v, c) ∈ find_vars R := by
    rw [find_vars_mem_iff, hvR v hc]; exact hf
  have hg := h (v, c) hmem hc
  have hi : (find_vars L').index v = (find_vars L).index v := by
    unfold VarMap.index
    rw [hvL v hc]
  show (find_vars L').index v ≠ 0 ∧ c ≤ (find_vars L').index v
  rw [hi]
  exact hg

/-- C8: constant-wildcard exemption. If `L`, `L'` have the same histogram and the same root
kind, `R`, `R'` likewise, and the occurrence maps of `L`, `L'` agree on every name that does
not begin with `c`, and likewise those of `R`, `R'`, then the verdict for `(L, R)` is the
verdict for `(L', R')`. -/
theorem wildcard_exemption (L R L' R' : Expr)
    (hhL : build_histogram L = build_histogram L')
    (hhR : build_histogram R = build_histogram R')
    (hkL : L.node_type = L'.node_type) (hkR : R.node_type = R'.node_type)
    (hvL : ∀ v : String, v.front ≠ 'c' → (find_vars L).find? v = (find_vars L').find? v)
    (hvR : ∀ v : String, v.front ≠ 'c' → (find_vars R).find? v = (find_vars R').find? v) :
    valid_reduction_order L R = valid_reduction_order L' R' := by
  have hc : compare_histograms L R = compare_histograms L' R' := by
    unfold compare_histograms; rw [hhL, hhR]
  have hg : var_gate_passes (find_vars L) (find_vars R) ↔
      var_gate_passes (find_vars L') (find_vars R') :=
    ⟨var_gate_passes_congr L R L' R' hvL hvR,
      var_gate_passes_congr L' R' L R (fun v h => (hvL v h).symm) (fun v h => (hvR v h).symm)⟩
  unfold valid_reduction_order
  rw [Bool.eq_iff_iff, valid_reduction_order_with_iff, valid_reduction_order_with_iff,
    hc, hg, hkL, hkR]

theorem find_single (n v : String) (hv : v.front ≠ 'c') (hn : n.front = 'c') :
    VarMap.find? [("x", 1), (n, 1)] v = VarMap.find? [("x", 1)] v := by
  have hne : (v == n) = false := by
    have : v ≠ n := by rintro rfl; exact hv hn
    simpa using this
  unfold VarMap.find?
  by_cases hx : (v == "x") = true
  · simp [List.lookup_cons, hx]
  · have hx' : (v == "x") = false := by simpa using hx
    simp [List.lookup_cons, hx', hne]

/-- The exemption at `L = x + c0`, `R = c0` against `L' = x + c1`, `R' = c2`: the two pairs
differ only in which wildcards occur, and the verdicts agree. -/
theorem wildcard_exemption_witness :
    valid_reduction_order (.Add (.Variable "x") (.Variable "c0")) (.Variable "c0") =
      valid_reduction_order (.Add (.Variable "x") (.Variable "c1")) (.Variable "c2") :=
  wildcard_exemption (.Add (.Variable "x") (.Variable "c0")) (.Variable "c0")
    (.Add (.Variable "x") (.Variable "c1")) (.Variable "c2") rfl rfl rfl rfl
    (fun v hv => by
      show VarMap.find? [("x", 1), ("c0", 1)] v = VarMap.find? [("x", 1), ("c1", 1)] v
      rw [find_single "c0" v hv (by decide), find_single "c1" v hv (by decide)])
    (fun v hv => by
      have h0 : (v == "c0") = false := by
        have : v ≠ "c0" := by rintro rfl; exact hv (by decide)
        simpa using this
      have h2 : (v == "c2") = false := by
        have : v ≠ "c2" := by rintro rfl; exact hv (by decide)
        simpa using this
      show VarMap.find? [("c0", 1)] v = VarMap.find? [("c2", 1)] v
      simp [VarMap.find?, List.lookup_cons, h0, h2])

/-! ## Concrete rules -/

/-- C9: for `L = x + y` and `R = x` the variable containment gate passes, the histograms tie
at every kind before `Add` in the priority order, `L` holds one `Add` and `R` none, so the
comparison is decided at `Add` with the value `1`, and the rule is accepted. -/
theorem accept_add_rule :
    var_gate_passes (find_vars (.Add (.Variable "x") (.Variable "y")))
      (find_vars (.Variable "x")) ∧
    (∀ k ∈ node_ordering.takeWhile (fun k => k != IRNodeType.Add),
      (build_histogram (.Add (.Variable "x") (.Variable "y"))).count0 k =
        (build_histogram (.Variable "x")).count0 k) ∧
    first_difference (.Add (.Variable "x") (.Variable "y")) (.Variable "x") = some .Add ∧
    (build_histogram (.Add (.Variable "x") (.Variable "y"))).count0 .Add = 1 ∧
    (build_histogram (.Variable "x")).count0 .Add = 0 ∧
    compare_histograms (.Add (.Variable "x") (.Variable "y")) (.Variable "x") = 1 ∧
    valid_reduction_order (.Add (.Variable "x") (.Variable "y")) (.Variable "x") = true :=
  ⟨(any_var_gate_fails _ _).1 (by decide), by decide, by decide, by decide, by decide,
    by decide, by decide⟩

/-- C10, as stated, fails: for `L = min(x, y)` and `R = max(x, y) + max(x, y)` the
comparison of the histograms is not decided at the `Min` kind. -/
theorem reject_min_rule_not_at_min :
    ¬ (valid_reduction_order (.Min (.Variable "x") (.Variable "y"))
          (.Add (.Max (.Variable "x") (.Variable "y"))
            (.Max (.Variable "x") (.Variable "y"))) = false ∧
        first_difference (.Min (.Variable "x") (.Variable "y"))
          (.Add (.Max (.Variable "x") (.Variable "y"))
            (.Max (.Variable "x") (.Variable "y"))) = some .Min ∧
        (build_histogram (.Min (.Variable "x") (.Variable "y"))).count0 .Min = 1 ∧
        (build_histogram (.Add (.Max (.Variable "x") (.Variable "y"))
            (.Max (.Variable "x") (.Variable "y")))).count0 .Min = 2) := by
  decide

/-- C10, amended: for `L = min(x, y)` and `R = max(x, y) + max(x, y)` the rule is rejected.
The variable containment gate already rejects it (`x` and `y` occur twice in `R`, once in
`L`); `compare_histograms(L, R)` is `-1`, decided at the `Add` kind, where `L` holds 0 and `R`
holds 1; the `Min` kind comes later in the priority order, and there `L` holds 1 and `R`
holds 2. -/
theorem reject_min_rule :
    valid_reduction_order (.Min (.Variable "x") (.Variable "y"))
      (.Add (.Max (.Variable "x") (.Variable "y"))
        (.Max (.Variable "x") (.Variable "y"))) = false ∧
    (find_vars (.Add (.Max (.Variable "x") (.Variable "y"))
        (.Max (.Variable "x") (.Variable "y")))).any
      (var_gate_fails (find_vars (.Min (.Variable "x") (.Variable "y")))) = true ∧
    find_vars (.Min (.Variable "x") (.Variable "y")) = [("x", 1), ("y", 1)] ∧
    find_vars (.Add (.Max (.Variable "x") (.Variable "y"))
      (.Max (.Variable "x") (.Variable "y"))) = [("x", 2), ("y", 2)] ∧
    compare_histograms (.Min (.Variable "x") (.Variable "y"))
      (.Add (.Max (.Variable "x") (.Variable "y"))
        (.Max (.Variable "x") (.Variable "y"))) = -1 ∧
    first_difference (.Min (.Variable "x") (.Variable "y"))
      (.Add (.Max (.Variable "x") (.Variable "y"))
        (.Max (.Variable "x") (.Variable "y"))) = some .Add ∧
    (build_histogram (.Min (.Variable "x") (.Variable "y"))).count0 .Add = 0 ∧
    (build_histogram (.Add (.Max (.Variable "x") (.Variable "y"))
      (.Max (.Variable "x") (.Variable "y")))).count0 .Add = 1 ∧
    (build_histogram (.Min (.Variable "x") (.Variable "y"))).count0 .Min = 1 ∧
    (build_histogram (.Add (.Max (.Variable "x") (.Variable "y"))
      (.Max (.Variable "x") (.Variable "y")))).count0 .Min = 2 := by
  decide

/-! ## The rank table -/

/-- C11: a call does modify the rank table. For `L = cast(x)`, `R = x` the table of program
start has no entry for the kind `Variable`, and after the call it holds the entry
`Variable ↦ 0`, inserted by the read `nto[rhs_root_type]`. What a call never changes is the
rank read for a kind. -/
theorem valid_reduction_order_inserts_rank :
    (nto .Variable = none ∧
      (valid_reduction_order_st find_vars nto (.Cast (.Variable "x")) (.Variable "x")).2
        .Variable = some 0 ∧
      (valid_reduction_order_st find_vars nto (.Cast (.Variable "x")) (.Variable "x")).2 ≠
        nto) ∧
    (∀ (fv : Expr → VarMap) (tbl : KindMap) (L R : Expr) (k : IRNodeType),
      (valid_reduction_order_st fv tbl L R).2.count0 k = tbl.count0 k) := by
  refine ⟨⟨by decide, by decide, ?_⟩, valid_reduction_order_st_count0⟩
  intro h
  have h1 := congrFun h .Variable
  revert h1
  decide

/-- C12: the rank table is not complete over the kinds that can be the root of an input
expression: the kinds `Variable` and `Let` have no entry, and `x` is an expression whose
root is a `Variable`. Every other kind has an entry. -/
theorem nto_misses_variable :
    (IRNodeType.Variable ∈ root_kinds ∧ nto .Variable = none ∧ nto .Let = none ∧
      (Expr.Variable "x").node_type = .Variable) ∧
    (∀ k ∈ root_kinds, k ≠ .Variable → (nto k).isSome = true) := by
  decide

theorem nto_nonneg (j : IRNodeType) (v : Int) (h : nto j = some v) : 0 ≤ v := by
  have key : ∀ i, 0 ≤ (nto i).getD 0 := by
    intro i
    cases i <;> decide
  have hj := key j
  rw [h] at hj
  exact hj

theorem reachable_index (fv : Expr → VarMap) (tbl : KindMap) (h : Reachable fv tbl)
    (k : IRNodeType) : (tbl.index k).1 = rank k := by
  rw [index_fst, reachable_count0 fv tbl h]

/-- C13: reading the rank of a kind without entry in `nto` does not fail. In every reachable
state of the table the read gives `0`, which is at most the rank of every kind that has an
entry; and the call of `valid_reduction_order` returns a verdict and a table for every pair
of expressions. -/
theorem rank_lookup_default (fv : Expr → VarMap) (tbl : KindMap) (h : Reachable fv tbl)
    (k : IRNodeType) (hk : nto k = none) :
    (tbl.index k).1 = 0 ∧ rank k = 0 ∧
    (∀ j v, nto j = some v → (tbl.index k).1 ≤ v) ∧
    (∀ L R : Expr, ∃ b tbl',
      valid_reduction_order_st fv tbl L R = (b, tbl') ∧ Reachable fv tbl') := by
  have hr : rank k = 0 := by
    unfold rank KindMap.index
    rw [hk]
  have hi : (tbl.index k).1 = 0 := by rw [reachable_index fv tbl h, hr]
  refine ⟨hi, hr, ?_, ?_⟩
  · intro j v hj
    rw [hi]
    exact nto_nonneg j v hj
  · intro L R
    exact ⟨(valid_reduction_order_st fv tbl L R).1, (valid_reduction_order_st fv tbl L R).2,
      rfl, Reachable.call tbl L R h⟩

/-- The default rank at the kind `Variable`, read in the table left by the call on
`cast(x)` and `x`. -/
theorem rank_lookup_default_witness :
    ((valid_reduction_order_st find_vars nto (.Cast (.Variable "x"))
        (.Variable "x")).2.index .Variable).1 = 0 ∧
    rank .Variable = 0 ∧
    (∀ j v, nto j = some v →
      ((valid_reduction_order_st find_vars nto (.Cast (.Variable "x"))
        (.Variable "x")).2.index .Variable).1 ≤ v) ∧
    (∀ L R : Expr, ∃ b tbl',
      valid_reduction_order_st find_vars
        (valid_reduction_order_st find_vars nto (.Cast (.Variable "x")) (.Variable "x")).2
          L R = (b, tbl') ∧ Reachable find_vars tbl') :=
  rank_lookup_default find_vars _
    (Reachable.call nto (.Cast (.Variable "x")) (.Variable "x") Reachable.start)
    .Variable (by decide)

theorem isImm_facts (e : Expr) (h : e.isImm = true) :
    find_vars e = [] ∧ build_histogram e = KindMap.empty ∧
      (e.node_type = .IntImm ∨ e.node_type = .UIntImm ∨ e.node_type = .FloatImm) := by
  cases e <;> first
    | exact ⟨rfl, rfl, by simp [Expr.node_type]⟩
    | exact absurd h (by simp [Expr.isImm])

/-- C14: for bare literals `L`, `R` the verdict is decided by the root-kind tie-break alone:
it is true exactly when the rank of the kind of `L` is below that of `R`, that is, exactly
for the pairs (integer, unsigned), (integer, floating) and (unsigned, floating). -/
theorem literal_rules (L R : Expr) (hL : L.isImm = true) (hR : R.isImm = true) :
    compare_histograms L R = 0 ∧
    (valid_reduction_order L R = true ↔ rank L.node_type < rank R.node_type) ∧
    (valid_reduction_order L R = true ↔
      (L.node_type = .IntImm ∧ R.node_type = .UIntImm) ∨
      (L.node_type = .IntImm ∧ R.node_type = .FloatImm) ∨
      (L.node_type = .UIntImm ∧ R.node_type = .FloatImm)) := by
  obtain ⟨hvL, hhL, hkL⟩ := isImm_facts L hL
  obtain ⟨hvR, hhR, hkR⟩ := isImm_facts R hR
  have hc : compare_histograms L R = 0 := by
    unfold compare_histograms
    rw [hhL, hhR]
    exact compare_histograms_loop_self _ _
  have hg : var_gate_passes (find_vars L) (find_vars R) := by
    rw [hvR]
    intro vc hvc
    simp at hvc
  have h1 : valid_reduction_order L R = true ↔ rank L.node_type < rank R.node_type := by
    unfold valid_reduction_order
    rw [valid_reduction_order_with_iff, hc]
    simp [hg]
  refine ⟨hc, h1, ?_⟩
  rw [h1]
  rcases hkL with h | h | h <;> rcases hkR with h' | h' | h' <;> rw [h, h'] <;> decide

/-- The literal rule `0 → 0u`: an integer literal rewritten to an unsigned literal. -/
theorem literal_rules_witness :
    compare_histograms (.IntImm 0) (.UIntImm 0) = 0 ∧
    (valid_reduction_order (.IntImm 0) (.UIntImm 0) = true ↔
      rank (Expr.IntImm 0).node_type < rank (Expr.UIntImm 0).node_type) ∧
    (valid_reduction_order (.IntImm 0) (.UIntImm 0) = true ↔
      ((Expr.IntImm 0).node_type = .IntImm ∧ (Expr.UIntImm 0).node_type = .UIntImm) ∨
      ((Expr.IntImm 0).node_type = .IntImm ∧ (Expr.UIntImm 0).node_type = .FloatImm) ∨
      ((Expr.IntImm 0).node_type = .UIntImm ∧ (Expr.UIntImm 0).node_type = .FloatImm)) :=
  literal_rules (.IntImm 0) (.UIntImm 0) rfl rfl

/-- C16: in the rank table every operator kind ranks strictly above `Cast`, `Cast` ranks
strictly above every literal kind, `Max` and `Min` have the same rank and are the only two
distinct entries that share a rank, and the priority list `node_ordering` is strictly
descending in rank. -/
theorem nto_layout :
    (∀ k ∈ operator_kinds, ∃ r c, nto k = some r ∧ nto .Cast = some c ∧ c < r) ∧
    (∀ k ∈ literal_kinds, ∃ r c, nto k = some r ∧ nto .Cast = some c ∧ r < c) ∧
    nto .Max = nto .Min ∧ (nto .Max).isSome = true ∧
    (∀ p ∈ nto_entries, ∀ q ∈ nto_entries, p.1 ≠ q.1 → p.2 = q.2 →
      (p.1 = .Max ∧ q.1 = .Min) ∨ (p.1 = .Min ∧ q.1 = .Max)) ∧
    (∀ p ∈ nto_entries, nto p.1 = some p.2) ∧
    (node_ordering.map rank).Pairwise (fun a b => a > b) := by
  refine ⟨?_, ?_, by decide, by decide, by decide, by decide, by decide⟩
  · intro k hk
    simp only [operator_kinds, node_ordering, List.cons_append, List.nil_append,
      List.mem_cons, List.mem_singleton, List.not_mem_nil, or_false] at hk
    rcases hk with h | h | h | h | h | h | h | h | h | h | h | h | h | h | h | h | h | h | h <;>
      subst h <;> exact ⟨_, _, rfl, rfl, by decide⟩
  · intro k hk
    simp only [literal_kinds, List.mem_cons, List.mem_singleton, List.not_mem_nil,
      or_false] at hk
    rcases hk with h | h | h <;> subst h <;> exact ⟨_, _, rfl, rfl, by decide⟩

/-! ## Let-bindings in the histogram -/

theorem increment_histo_positive (h : KindMap) (k' : IRNodeType) (hP : h.Positive) :
    (increment_histo h k').Positive := by
  intro k c hk
  unfold increment_histo at hk
  cases hk' : h k' with
  | none =>
    rw [hk'] at hk
    simp only [KindMap.set] at hk
    split_ifs at hk with e
    · have : (1 : Int) = c := by simpa using hk
      omega
    · exact hP k c hk
  | some c' =>
    rw [hk'] at hk
    simp only [KindMap.set] at hk
    have hc' := hP k' c' hk'
    split_ifs at hk with e
    · have : c' + 1 = c := by simpa using hk
      omega
    · exact hP k c hk

theorem visit_positive (e : Expr) : ∀ h : KindMap, h.Positive → (NodeHistogram.visit e h).Positive := by
  induction e <;> intro h hP <;> simp only [NodeHistogram.visit] <;>
    repeat (first | assumption | apply increment_histo_positive | apply_assumption)

theorem build_histogram_positive (e : Expr) : (build_histogram e).Positive :=
  visit_positive e KindMap.empty (fun k c hk => by simp [KindMap.empty] at hk)

theorem kindmap_eq_of_count0 (m₁ m₂ : KindMap) (h₁ : m₁.Positive) (h₂ : m₂.Positive)
    (hc : ∀ k, m₁.count0 k = m₂.count0 k) : m₁ = m₂ := by
  funext k
  have hk := hc k
  unfold KindMap.count0 at hk
  cases e1 : m₁ k with
  | none =>
    cases e2 : m₂ k with
    | none => rfl
    | some c =>
      rw [e1, e2] at hk
      have := h₂ k c e2
      simp only at hk
      omega
  | some c =>
    cases e2 : m₂ k with
    | none =>
      rw [e1, e2] at hk
      have := h₁ k c e1
      simp only at hk
      omega
    | some c' =>
      rw [e1, e2] at hk
      simp only at hk
      rw [hk]

theorem add_positive (m₁ m₂ : KindMap) (h₁ : m₁.Positive) (h₂ : m₂.Positive) :
    (KindMap.add m₁ m₂).Positive := by
  intro k c hk
  unfold KindMap.add at hk
  cases e1 : m₁ k with
  | none =>
    cases e2 : m₂ k with
    | none => rw [e1, e2] at hk; simp at hk
    | some b =>
      rw [e1, e2] at hk
      have := h₂ k b e2
      have : b = c := by simpa using hk
      omega
  | some a =>
    have ha := h₁ k a e1
    cases e2 : m₂ k with
    | none =>
      rw [e1, e2] at hk
      have : a = c := by simpa using hk
      omega
    | some b =>
      rw [e1, e2] at hk
      have := h₂ k b e2
      have : a + b = c := by simpa using hk
      omega

theorem add_count0 (m₁ m₂ : KindMap) (k : IRNodeType) :
    (KindMap.add m₁ m₂).count0 k = m₁.count0 k + m₂.count0 k := by
  cases e1 : m₁ k <;> cases e2 : m₂ k <;> simp [KindMap.add, KindMap.count0, e1, e2]

/-- On counters read as mathematical integers a let-binding is transparent to the histogram:
the histogram of `let x = v in b` is the pointwise sum of the histograms of `v` and `b`, and
the histogram never has an entry for the kind `Let`. -/
theorem build_histogram_let_unbounded (x : String) (v b : Expr) :
    build_histogram (.Let x v b) = KindMap.add (build_histogram v) (build_histogram b) ∧
    (∀ k, (build_histogram (.Let x v b)).count0 k =
      (build_histogram v).count0 k + (build_histogram b).count0 k) ∧
    build_histogram (.Let x v b) .Let = none := by
  have hcount : ∀ k, (build_histogram (.Let x v b)).count0 k =
      (build_histogram v).count0 k + (build_histogram b).count0 k := by
    intro k
    show (NodeHistogram.visit b (NodeHistogram.visit v KindMap.empty)).count0 k = _
    rw [visit_count0, build_histogram_count0 b]
    rfl
  refine ⟨?_, hcount, ?_⟩
  · apply kindmap_eq_of_count0
    · exact build_histogram_positive _
    · exact add_positive _ _ (build_histogram_positive v) (build_histogram_positive b)
    · intro k
      rw [hcount, add_count0]
  · have hz : bucket_count .Let (.Let x v b) = 0 := by
      unfold bucket_count
      rw [List.count_eq_zero]
      intro hmem
      obtain ⟨j, _, hj⟩ := List.mem_filterMap.1 hmem
      cases j <;> simp [histogram_bucket] at hj
    have hc := build_histogram_count0 (.Let x v b) .Let
    rw [hz] at hc
    cases e : build_histogram (.Let x v b) .Let with
    | none => rfl
    | some c =>
      have hpos := build_histogram_positive (.Let x v b) .Let c e
      unfold KindMap.count0 at hc
      rw [e] at hc
      simp only at hc
      have : c = 0 := by exact_mod_cast hc
      omega

/-! ## Let-bindings on the 32-bit counter -/

theorem int32_wrap_of_range (z : Int) (h1 : -2147483648 ≤ z) (h2 : z < 2147483648) :
    int32_wrap z = z := by
  unfold int32_wrap; omega

theorem int32_wrap_add (a b : Int) : int32_wrap (int32_wrap a + b) = int32_wrap (a + b) := by
  unfold int32_wrap; omega

theorem int32_wrap_range (z : Int) :
    -2147483648 ≤ int32_wrap z ∧ int32_wrap z < 2147483648 := by
  unfold int32_wrap; omega

theorem visit_eq_foldl (e : Expr) (h : KindMap) :
    NodeHistogram.visit e h = (e.kinds.filterMap histogram_bucket).foldl increment_histo h := by
  induction e generalizing h <;>
    simp [NodeHistogram.visit, Expr.kinds, histogram_bucket, List.filterMap_append,
      List.foldl_append, *]

theorem visit32_eq_foldl (e : Expr) (h : KindMap) :
    NodeHistogram.visit32 e h =
      (e.kinds.filterMap histogram_bucket).foldl increment_histo32 h := by
  induction e generalizing h <;>
    simp [NodeHistogram.visit32, Expr.kinds, histogram_bucket, List.filterMap_append,
      List.foldl_append, *]

theorem increment_histo32_eq (h : KindMap) (k' : IRNodeType) (hP : h.Positive)
    (hb : h.count0 k' + 1 < 2147483648) : increment_histo32 h k' = increment_histo h k' := by
  unfold increment_histo32 increment_histo
  cases hk : h k' with
  | none => rfl
  | some c =>
    have hc := hP k' c hk
    have hb' : c + 1 < 2147483648 := by
      simpa [KindMap.count0, hk] using hb
    simp only []
    rw [int32_wrap_of_range (c + 1) (by omega) hb']

theorem foldl_increment_agree (l : List IRNodeType) (h : KindMap) (hP : h.Positive)
    (hb : ∀ k, h.count0 k + (l.count k : Int) < 2147483648) :
    l.foldl increment_histo32 h = l.foldl increment_histo h := by
  induction l generalizing h with
  | nil => rfl
  | cons k' l ih =>
    have h1 : h.count0 k' + 1 < 2147483648 := by
      have := hb k'
      simp only [List.count_cons_self] at this
      push_cast at this
      omega
    simp only [List.foldl_cons]
    rw [increment_histo32_eq h k' hP h1]
    apply ih _ (increment_histo_positive h k' hP)
    intro k
    have := hb k
    rw [count0_increment_histo]
    rw [List.count_cons] at this
    by_cases e : k = k'
    · subst e; simp at this ⊢; omega
    · have e' : ¬ (k' == k) = true := by simpa using fun h => e h.symm
      simp [e, e'] at this ⊢; omega

theorem build_histogram32_eq (e : Expr) (hb : ∀ k, bucket_count k e < 2147483648) :
    build_histogram32 e = build_histogram e := by
  unfold build_histogram32 build_histogram
  rw [visit32_eq_foldl, visit_eq_foldl]
  apply foldl_increment_agree
  · intro k c hk; simp [KindMap.empty] at hk
  · intro k
    have := hb k
    unfold bucket_count at this
    simp only [KindMap.count0, KindMap.empty]
    omega

theorem count0_in_range (h : KindMap) (hR : h.InRange) (k : IRNodeType) :
    -2147483648 ≤ h.count0 k ∧ h.count0 k < 2147483648 := by
  unfold KindMap.count0
  cases hk : h k with
  | none => simp
  | some c => exact hR k c hk

theorem increment_histo32_in_range (h : KindMap) (k' : IRNodeType) (hR : h.InRange) :
    (increment_histo32 h k').InRange := by
  intro k c hk
  unfold increment_histo32 at hk
  cases hk' : h k' with
  | none =>
    rw [hk'] at hk
    simp only [KindMap.set] at hk
    split_ifs at hk with e
    · have : (1 : Int) = c := by simpa using hk
      omega
    · exact hR k c hk
  | some c' =>
    rw [hk'] at hk
    simp only [KindMap.set] at hk
    split_ifs at hk with e
    · have : int32_wrap (c' + 1) = c := by simpa using hk
      rw [← this]
      exact int32_wrap_range _
    · exact hR k c hk

theorem count0_increment_histo32 (h : KindMap) (hR : h.InRange) (k' k : IRNodeType) :
    (increment_histo32 h k').count0 k =
      int32_wrap (h.count0 k + if k = k' then 1 else 0) := by
  have hr := count0_in_range h hR k
  unfold increment_histo32
  cases hk : h k' with
  | none =>
    simp only [count0_set]
    split_ifs with e
    · subst e
      simp [KindMap.count0, hk, int32_wrap]
    · rw [add_zero, int32_wrap_of_range _ hr.1 hr.2]
  | some c =>
    simp only [count0_set]
    split_ifs with e
    · subst e
      simp [KindMap.count0, hk]
    · rw [add_zero, int32_wrap_of_range _ hr.1 hr.2]

theorem foldl_increment32_count0 (l : List IRNodeType) (h : KindMap) (hR : h.InRange)
    (k : IRNodeType) :
    (l.foldl increment_histo32 h).count0 k = int32_wrap (h.count0 k + (l.count k : Int)) := by
  induction l generalizing h with
  | nil =>
    have hr := count0_in_range h hR k
    simp only [List.foldl_nil, List.count_nil, Nat.cast_zero, add_zero]
    rw [int32_wrap_of_range _ hr.1 hr.2]
  | cons k' l ih =>
    simp only [List.foldl_cons]
    rw [ih _ (increment_histo32_in_range h k' hR), count0_increment_histo32 h hR,
      int32_wrap_add, List.count_cons]
    by_cases e : k = k'
    · subst e; simp; ring_nf
    · have e' : ¬ (k' == k) = true := by simpa using fun h => e h.symm
      simp [e, e']

theorem build_histogram32_count0 (e : Expr) (k : IRNodeType) :
    (build_histogram32 e).count0 k = int32_wrap (bucket_count k e) := by
  unfold build_histogram32
  rw [visit32_eq_foldl, foldl_increment32_count0]
  · simp [KindMap.count0, KindMap.empty, bucket_count]
  · intro j c hj; simp [KindMap.empty] at hj

theorem bucket_count_add_node (a b : Expr) :
    bucket_count .Add (.Add a b) = 1 + (bucket_count .Add a + bucket_count .Add b) := by
  simp [bucket_count, Expr.kinds, histogram_bucket, List.filterMap_append, List.count_cons]
  omega

theorem bucket_count_doubled (n : Nat) : bucket_count .Add (Expr.doubled n) + 1 = 2 ^ n := by
  induction n with
  | zero => rfl
  | succ n ih =>
    have : Expr.doubled (n + 1) = .Add (Expr.doubled n) (Expr.doubled n) := rfl
    rw [this, bucket_count_add_node, pow_succ]
    omega

theorem bucket_count_big30 : bucket_count .Add Expr.big30 = 1073741824 := by
  have h := bucket_count_doubled 30
  have hx : bucket_count .Add (.Variable "x") = 0 := rfl
  unfold Expr.big30
  rw [bucket_count_add_node, hx]
  norm_num at h
  omega

theorem bucket_count_let (k : IRNodeType) (x : String) (v b : Expr) :
    bucket_count k (.Let x v b) = bucket_count k v + bucket_count k b := by
  simp [bucket_count, Expr.kinds, histogram_bucket, List.filterMap_append]

/-- C15, as stated, fails on the 32-bit counter: for `let t = e in e`, where `e` has `2^30`
`Add` nodes, the histogram holds `-2147483648` for `Add` (the counter wraps at the
`2^31`-th increment), while the pointwise sum of the histograms of the value and the body
holds `2147483648`. -/
theorem build_histogram32_let_overflow :
    (build_histogram32 (.Let "t" Expr.big30 Expr.big30)).count0 .Add = -2147483648 ∧
    (build_histogram32 Expr.big30).count0 .Add = 1073741824 ∧
    (KindMap.add (build_histogram32 Expr.big30) (build_histogram32 Expr.big30)).count0 .Add =
      2147483648 ∧
    build_histogram32 (.Let "t" Expr.big30 Expr.big30) ≠
      KindMap.add (build_histogram32 Expr.big30) (build_histogram32 Expr.big30) := by
  have h1 : (build_histogram32 (.Let "t" Expr.big30 Expr.big30)).count0 .Add =
      -2147483648 := by
    rw [build_histogram32_count0, bucket_count_let, bucket_count_big30]
    decide
  have h2 : (build_histogram32 Expr.big30).count0 .Add = 1073741824 := by
    rw [build_histogram32_count0, bucket_count_big30]
    decide
  have h3 : (KindMap.add (build_histogram32 Expr.big30)
      (build_histogram32 Expr.big30)).count0 .Add = 2147483648 := by
    rw [add_count0, h2]
    norm_num
  refine ⟨h1, h2, h3, ?_⟩
  intro he
  rw [he, h3] at h1
  omega

/-- C15, amended: when no count of `let x = v in b` reaches `2^31`, the histogram of
`let x = v in b`, computed on the 32-bit counter, is the pointwise sum of the histograms of
`v` and `b`: the let node adds no count, none of the counts depends on `x`, and the
histogram has no entry for the kind `Let`. -/
theorem build_histogram32_let (x : String) (v b : Expr)
    (hb : ∀ k, bucket_count k (.Let x v b) < 2147483648) :
    build_histogram32 (.Let x v b) =
      KindMap.add (build_histogram32 v) (build_histogram32 b) ∧
    (∀ k, (build_histogram32 (.Let x v b)).count0 k =
      (build_histogram32 v).count0 k + (build_histogram32 b).count0 k) ∧
    build_histogram32 (.Let x v b) .Let = none := by
  have hv : ∀ k, bucket_count k v < 2147483648 := by
    intro k
    have := hb k
    rw [bucket_count_let] at this
    omega
  have hb' : ∀ k, bucket_count k b < 2147483648 := by
    intro k
    have := hb k
    rw [bucket_count_let] at this
    omega
  rw [build_histogram32_eq _ hb, build_histogram32_eq v hv, build_histogram32_eq b hb']
  exact build_histogram_let_unbounded x v b

/-- The amended law at `let t = x + y in t * 2`. -/
theorem build_histogram32_let_witness :
    build_histogram32 (.Let "t" (.Add (.Variable "x") (.Variable "y"))
        (.Mul (.Variable "t") (.IntImm 2))) =
      KindMap.add (build_histogram32 (.Add (.Variable "x") (.Variable "y")))
        (build_histogram32 (.Mul (.Variable "t") (.IntImm 2))) ∧
    (∀ k, (build_histogram32 (.Let "t" (.Add (.Variable "x") (.Variable "y"))
        (.Mul (.Variable "t") (.IntImm 2)))).count0 k =
      (build_histogram32 (.Add (.Variable "x") (.Variable "y"))).count0 k +
        (build_histogram32 (.Mul (.Variable "t") (.IntImm 2))).count0 k) ∧
    build_histogram32 (.Let "t" (.Add (.Variable "x") (.Variable "y"))
      (.Mul (.Variable "t") (.IntImm 2))) .Let = none :=
  build_histogram32_let "t" (.Add (.Variable "x") (.Variable "y"))
    (.Mul (.Variable "t") (.IntImm 2)) (by intro k; cases k <;> decide)

/-! ## The divisor collector -/

theorem divisor_visit_mem (render : Expr → String) (e : Expr) (d : List String) (s : String) :
    s ∈ DivisorSet.visit render e d ↔
      s ∈ d ∨ s ∈ (e.subterms.filterMap Expr.divisor?).map render := by
  induction e generalizing d <;>
    simp only [DivisorSet.visit, Expr.subterms, Expr.divisor?, List.filterMap_cons,
      List.filterMap_nil, List.filterMap_append, List.map_append, List.map_cons, List.map_nil,
      List.mem_append, List.mem_cons, List.mem_insert_iff, List.not_mem_nil, or_false, *] <;>
    tauto

theorem divisor_iff (n b : Expr) :
    n.divisor? = some b ↔ ∃ a, n = .Div a b ∨ n = .Mod a b := by
  cases n <;> simp [Expr.divisor?]

/-- C17: `find_divisors(e)` holds exactly the renderings of the right operands of the `Div`
and `Mod` nodes occurring anywhere in `e`, and `check_divisors(L, R)` is true exactly when
every element of `find_divisors(R)` is an element of `find_divisors(L)`. The rendering
function is arbitrary. -/
theorem find_divisors_spec (render : Expr → String) :
    (∀ (e : Expr) (s : String), s ∈ find_divisors render e ↔
      ∃ n ∈ e.subterms, ∃ a b, (n = .Div a b ∨ n = .Mod a b) ∧ render b = s) ∧
    (∀ L R : Expr, check_divisors render L R = true ↔
      ∀ s ∈ find_divisors render R, s ∈ find_divisors render L) := by
  constructor
  · intro e s
    unfold find_divisors
    rw [divisor_visit_mem]
    simp only [List.not_mem_nil, false_or, List.mem_map, List.mem_filterMap]
    constructor
    · rintro ⟨b, ⟨n, hn, hb⟩, hs⟩
      obtain ⟨a, ha⟩ := (divisor_iff n b).1 hb
      exact ⟨n, hn, a, b, ha, hs⟩
    · rintro ⟨n, hn, a, b, ha, hs⟩
      exact ⟨b, ⟨n, hn, (divisor_iff n b).2 ⟨a, ha⟩⟩, hs⟩
  · intro L R
    unfold check_divisors
    simp [List.all_eq_true]

/-- C18: the divisor-containment check does not gate the verdict. For `L = select(b, x, y)`
and `R = x / y`, whatever the rendering function, `check_divisors(L, R)` is false (`L` has no
divisor, `R` has the divisor `y`) and `valid_reduction_order(L, R)` is true. -/
theorem check_divisors_not_wired (render : Expr → String) :
    find_divisors render (.Select (.Variable "b") (.Variable "x") (.Variable "y")) = [] ∧
    find_divisors render (.Div (.Variable "x") (.Variable "y")) = [render (.Variable "y")] ∧
    check_divisors render (.Select (.Variable "b") (.Variable "x") (.Variable "y"))
      (.Div (.Variable "x") (.Variable "y")) = false ∧
    valid_reduction_order (.Select (.Variable "b") (.Variable "x") (.Variable "y"))
      (.Div (.Variable "x") (.Variable "y")) = true := by
  refine ⟨rfl, rfl, ?_, by decide⟩
  simp [check_divisors, find_divisors, DivisorSet.visit]

/-! ## The accepted-rule relation as an order -/

theorem compare_histograms_loop_swap (l r : KindMap) (ks : List IRNodeType) :
    compare_histograms_loop r l ks = - compare_histograms_loop l r ks := by
  induction ks with
  | nil => simp [compare_histograms_loop]
  | cons k ks ih =>
    simp only [compare_histograms_loop]
    split_ifs <;> omega

theorem compare_histograms_loop_trans (a b c : KindMap) (ks : List IRNodeType)
    (h1 : 0 ≤ compare_histograms_loop a b ks) (h2 : 0 ≤ compare_histograms_loop b c ks) :
    0 ≤ compare_histograms_loop a c ks ∧
      (compare_histograms_loop a c ks = 0 →
        compare_histograms_loop a b ks = 0 ∧ compare_histograms_loop b c ks = 0) := by
  induction ks with
  | nil => simp [compare_histograms_loop]
  | cons k ks ih =>
    simp only [compare_histograms_loop] at h1 h2 ⊢
    split_ifs at h1 h2 ⊢ <;> omega

/-- C19: the accepted-rule relation is asymmetric and irreflexive, whatever the
variable-occurrence function is: the verdicts for `(L, R)` and `(R, L)` are never both true,
and the verdict for `(L, L)` is false. -/
theorem valid_reduction_order_asymm (fv : Expr → VarMap) (L R : Expr) :
    ¬ (valid_reduction_order_with fv L R = true ∧ valid_reduction_order_with fv R L = true) ∧
    valid_reduction_order_with fv L L = false := by
  have key : ∀ A B : Expr,
      ¬ (valid_reduction_order_with fv A B = true ∧
        valid_reduction_order_with fv B A = true) := by
    rintro A B ⟨h1, h2⟩
    have o1 := ((valid_reduction_order_with_iff fv A B).1 h1).2
    have o2 := ((valid_reduction_order_with_iff fv B A).1 h2).2
    have hs : compare_histograms B A = - compare_histograms A B :=
      compare_histograms_loop_swap _ _ _
    rcases o1 with o1 | ⟨o1, r1⟩ <;> rcases o2 with o2 | ⟨o2, r2⟩ <;> omega
  refine ⟨key L R, ?_⟩
  cases h : valid_reduction_order_with fv L L with
  | false => rfl
  | true => exact absurd ⟨h, h⟩ (key L L)

/-- C20: the accepted-rule relation is transitive, whatever the variable-occurrence function
is (its counts need not be positive): if the verdicts for `(A, B)` and `(B, C)` are true,
the verdict for `(A, C)` is true. -/
theorem valid_reduction_order_trans (fv : Expr → VarMap) (A B C : Expr)
    (hAB : valid_reduction_order_with fv A B = true)
    (hBC : valid_reduction_order_with fv B C = true) :
    valid_reduction_order_with fv A C = true := by
  obtain ⟨g1, o1⟩ := (valid_reduction_order_with_iff fv A B).1 hAB
  obtain ⟨g2, o2⟩ := (valid_reduction_order_with_iff fv B C).1 hBC
  rw [valid_reduction_order_with_iff]
  constructor
  · intro vc hvc hc
    obtain ⟨hb0, hb⟩ := g2 vc hvc hc
    have hmem : (vc.1, (fv B).index vc.1) ∈ fv B :=
      lookup_some_mem _ _ _ (index_ne_zero_find _ _ hb0)
    obtain ⟨ha0, ha⟩ := g1 (vc.1, (fv B).index vc.1) hmem hc
    exact ⟨ha0, le_trans hb ha⟩
  · have h1 : 0 ≤ compare_histograms A B := by rcases o1 with h | ⟨h, _⟩ <;> omega
    have h2 : 0 ≤ compare_histograms B C := by rcases o2 with h | ⟨h, _⟩ <;> omega
    obtain ⟨h3, h4⟩ := compare_histograms_loop_trans _ _ _ node_ordering h1 h2
    rcases compare_histograms_loop_values (build_histogram A) (build_histogram C)
      node_ordering with h | h | h
    · exact Or.inl h
    · obtain ⟨e1, e2⟩ := h4 h
      have e1' : compare_histograms A B = 0 := e1
      have e2' : compare_histograms B C = 0 := e2
      right
      refine ⟨h, ?_⟩
      rcases o1 with o | ⟨_, r1⟩
      · omega
      · rcases o2 with o | ⟨_, r2⟩
        · omega
        · omega
    · omega

/-- Transitivity along `(x + y) + 1 → x + y → x`, with `find_vars` as the
variable-occurrence function. -/
theorem valid_reduction_order_trans_witness :
    valid_reduction_order_with find_vars
      (.Add (.Add (.Variable "x") (.Variable "y")) (.IntImm 1)) (.Variable "x") = true :=
  valid_reduction_order_trans find_vars
    (.Add (.Add (.Variable "x") (.Variable "y")) (.IntImm 1))
    (.Add (.Variable "x") (.Variable "y")) (.Variable "x") (by decide) (by decide)

end ReductionOrder
